import Mathlib

/-!
Verification of the Greed optimal-policy solver.

This file gives a shallow embedding of the solver code (the canonical
`DpSolver` variant in `src/code/src/dp/dp.rs`, plus the standalone PMF module
`src/code/src/pmf.rs`) and proves or refutes the specified properties about it.

Conventions of the embedding:
* `u16`/`u32` machine integers are embedded as `ℕ`.  Subtraction is the
  truncated natural subtraction; every place where this is used is guarded in
  the source exactly like here, so the two agree on all reachable inputs.
* `f64` probabilities and payoffs of the solver are embedded as exact
  rationals `ℚ`; the transcendental normal-approximation branch of the PMF
  module is embedded over `ℝ`.
* Unchecked slice indexing is embedded as `List.getD` with the default `0`
  (resp. the zero `Action`); every in-contract access is inside the bounds, so
  the default is never produced on the paths the theorems speak about.
* `rayon` parallel iteration (`par_iter` / `into_par_iter`) computes all
  results from the pre-write state and then commits them; it is embedded as a
  `List.map` over the same enumeration followed by a sequential fold of the
  writes, which is the committed-state semantics the source relies on.
-/

namespace Greed

/-- Game configuration (`Ruleset` in `src/code/src/lib.rs`): maximum score and
die sides. -/
structure Ruleset where
  max : ℕ
  sides : ℕ
deriving Repr, DecidableEq

/-- A game state (`State` in `src/code/src/lib.rs`): score of the player to
move, score of the opponent, and whether this is the final round. -/
structure State where
  active : ℕ
  queued : ℕ
  last : Bool
deriving Repr, DecidableEq

/-- An action (`Action` in `src/code/src/lib.rs`): number of dice to roll and
the expected payoff. -/
structure Action where
  n : ℕ
  payoff : ℚ
deriving Repr, DecidableEq

instance : Inhabited Action := ⟨⟨0, 0⟩⟩

/-- The dense policy table (`Policy` in `src/code/src/solver.rs`, re-exported
by `lib.rs` and used by `dp.rs`): one flat array of `Action` of size
`(max+1)*(max+1)*2`. -/
structure Policy where
  policy : List Action
  max : ℕ
deriving Repr, DecidableEq

/-- `Policy::new`: a zeroed table (Rust `Default` for `OptimalAction` is
`n = 0, payoff = 0.0`). -/
def Policy.new (max : ℕ) : Policy :=
  { policy := List.replicate ((max + 1) * (max + 1) * 2) default, max := max }

/-- The linear slot index of a state: `active + (max+1)*queued` plus the
terminal-half offset `(max+1)^2` when `last` is set.  This is the index
formula shared by `Policy::get` and `Policy::set`. -/
def Policy.placement (max : ℕ) (state : State) : ℕ :=
  (state.active + (max + 1) * state.queued) +
    (max + 1) * (max + 1) * (if state.last then 1 else 0)

/-- `Policy::get`. -/
def Policy.get (p : Policy) (state : State) : Action :=
  p.policy.getD (Policy.placement p.max state) default

/-- `Policy::set`. -/
def Policy.set (p : Policy) (state : State) (action : Action) : Policy :=
  { p with policy := p.policy.set (Policy.placement p.max state) action }

/-- Modelled from the spec: `fft_convolve` lives in `src/code/src/dp/pmf.rs`,
which is not part of the snapshot (only its callers are).  Spec section 4.2
describes it as the convolution of two finite PMFs `a` and `b`, computed via
FFT and truncated to length `La + Lb - 1`, the true support size of the sum;
this is exact (discrete linear) convolution. -/
def fft_convolve (a b : List ℚ) : List ℚ :=
  (List.range (a.length + b.length - 1)).map
    (fun k => (List.range (k + 1)).foldl
      (fun acc i => acc + a.getD i 0 * b.getD (k - i) 0) 0)

/-- `temp_pmfs[n]` of `PMFLookup::precompute`: the `n`-fold convolution of the
single-die PMF, starting from the point mass `[1.0]` for zero dice. -/
def iteratedConv (dice_pmf : List ℚ) : ℕ → List ℚ
  | 0 => [1]
  | n + 1 => fft_convolve (iteratedConv dice_pmf n) dice_pmf

/-- The PMF lookup table (`PMFLookup` in `src/code/src/dp/dp.rs`): flat data
array, per-dice-count offsets, and the maximum precomputed dice count. -/
structure PMFLookup where
  data : List ℚ
  offsets : List ℕ
  max_n : ℕ
deriving Repr, DecidableEq

/-- `PMFLookup::default`: empty table. -/
def PMFLookup.empty : PMFLookup := ⟨[], [], 0⟩

/-- The single-die PMF `dice_pmf` of `PMFLookup::precompute`:
`vec![1.0 / sides; sides]`. -/
def dicePmf (sides : ℕ) : List ℚ := List.replicate sides ((sides : ℚ))⁻¹

/-- `PMFLookup::precompute(max, sides)` from `src/code/src/dp/dp.rs`:
`max_n = max(2*(max+sides)/(sides+1), max+1)`, iterated convolutions for
`n = 0..=max_n`, flattened into one data array with an offset table. -/
def PMFLookup.precompute (max sides : ℕ) : PMFLookup :=
  let max_n := Nat.max (2 * (max + sides) / (sides + 1)) (max + 1)
  { data := ((List.range (max_n + 1)).map (iteratedConv (dicePmf sides))).flatten
    offsets := (List.range (max_n + 1)).map
      (fun i => ((List.range i).map
        (fun j => (iteratedConv (dicePmf sides) j).length)).sum)
    max_n := max_n }

/-- `PMFLookup::lookup(n, total)`: unchecked access at
`data[offsets[n] + (total - n)]`. -/
def PMFLookup.lookup (t : PMFLookup) (n total : ℕ) : ℚ :=
  t.data.getD (t.offsets.getD n 0 + (total - n)) 0

/-- `PMFLookup::lookup_safe(n, total)` from `src/code/src/dp/dp.rs`: return
`0.0` when `n > max_n` or `total < n`, otherwise index the data array,
returning `0.0` when the flat index is past the end of the data. -/
def PMFLookup.lookup_safe (t : PMFLookup) (n total : ℕ) : ℚ :=
  if n > t.max_n ∨ total < n then 0
  else
    let offset := t.offsets.getD n 0
    let index := offset + (total - n)
    if index < t.data.length then t.data.getD index 0 else 0

/-- The dynamic-programming solver (`DpSolver` in `src/code/src/dp/dp.rs`). -/
structure DpSolver where
  ruleset : Ruleset
  policy : Policy
  pmfs : PMFLookup
deriving Repr, DecidableEq

/-- `DpSolver::new(max, sides)`. -/
def DpSolver.new (max sides : ℕ) : DpSolver :=
  { ruleset := ⟨max, sides⟩, policy := Policy.new max, pmfs := PMFLookup.empty }

/-- `DpSolver::max`. -/
def DpSolver.max (s : DpSolver) : ℕ := s.ruleset.max

/-- `DpSolver::sides`. -/
def DpSolver.sides (s : DpSolver) : ℕ := s.ruleset.sides

/-- `DpSolver::precompute_pmfs`. -/
def DpSolver.precompute_pmfs (s : DpSolver) : DpSolver :=
  { s with pmfs := PMFLookup.precompute s.max s.sides }

/-- `DpSolver::calc_terminal_payoff(state, dice_rolled)`: for zero dice the
sign of `active.cmp(queued)`; otherwise the fold over all dice totals
`dice_rolled ..= sides*dice_rolled` adding the probability on a winning
total, subtracting it on a losing or busting total, and skipping ties. -/
def DpSolver.calc_terminal_payoff (s : DpSolver) (state : State)
    (dice_rolled : ℕ) : ℚ :=
  if dice_rolled = 0 then
    if state.active < state.queued then -1
    else if state.active = state.queued then 0
    else 1
  else
    (List.range' dice_rolled (s.sides * dice_rolled + 1 - dice_rolled)).foldl
      (fun acc dice_total =>
        let probability := s.pmfs.lookup dice_rolled dice_total
        if state.queued < state.active + dice_total ∧
            state.active + dice_total ≤ s.max then
          acc + probability
        else if state.active + dice_total < state.queued ∨
            state.queued < state.active + dice_total then
          acc - probability
        else acc)
      0

/-- The analytic search bound of `DpSolver::find_optimal_terminal_action`:
`max(2*max/(sides+1) + 1, max + 1)`. -/
def DpSolver.terminalSearchBound (s : DpSolver) : ℕ :=
  Nat.max (2 * s.max / (s.sides + 1) + 1) (s.max + 1)

/-- The search loop of `DpSolver::find_optimal_terminal_action`, with explicit
fuel.  The loop breaks as soon as the current payoff drops `10e-2` below the
best found, or `dice_rolled` reaches the analytic bound; since `dice_rolled`
increases by one per iteration, `terminalSearchBound + 1` fuel always
suffices and the fuel-exhausted branch is unreachable. -/
def DpSolver.terminalSearchLoop (s : DpSolver) (state : State) :
    ℕ → ℕ → Action → Action
  | 0, _, best => best
  | fuel + 1, dice_rolled, best =>
    let current := s.calc_terminal_payoff state dice_rolled
    if 1/10 ≤ best.payoff - current ∨ s.terminalSearchBound ≤ dice_rolled then
      best
    else
      DpSolver.terminalSearchLoop s state fuel (dice_rolled + 1)
        (if best.payoff < current then ⟨dice_rolled, current⟩ else best)

/-- `DpSolver::find_optimal_terminal_action(state)` from
`src/code/src/dp/dp.rs`: stand on a strict lead, take a guaranteed-win dice
count when one exists, otherwise search upward from the minimum viable dice
count. -/
def DpSolver.find_optimal_terminal_action (s : DpSolver) (state : State) :
    Action :=
  if state.queued < state.active then ⟨0, 1⟩
  else if s.sides * (state.queued - state.active + 1) ≤
      s.max - state.active then
    ⟨state.queued - state.active + 1, 1⟩
  else
    s.terminalSearchLoop state (s.terminalSearchBound + 1)
      ((state.queued - state.active) / s.sides) ⟨0, -1⟩

/-- `DpSolver::calc_normal_payoff(state, dice_rolled)` from
`src/code/src/dp/dp.rs`: rolling zero dice reads the role-swapped terminal
state; otherwise fold over all dice totals, looking up the role-swapped
successor when it does not bust and contributing `-1.0` when it does. -/
def DpSolver.calc_normal_payoff (s : DpSolver) (state : State)
    (dice_rolled : ℕ) : ℚ :=
  if dice_rolled = 0 then
    -(s.policy.get ⟨state.queued, state.active, true⟩).payoff
  else
    (List.range' dice_rolled (s.sides * dice_rolled + 1 - dice_rolled)).foldl
      (fun acc dice_total =>
        let probability := s.pmfs.lookup dice_rolled dice_total
        let payoff :=
          if state.active + dice_total ≤ s.max then
            -(s.policy.get ⟨state.queued, state.active + dice_total,
                false⟩).payoff
          else -1
        acc + probability * payoff)
      0

/-- The dice-count bound of `DpSolver::find_optimal_normal_action`:
`2*(max - active + sides)/(sides + 1)`. -/
def DpSolver.maxOptimalN (s : DpSolver) (state : State) : ℕ :=
  2 * (s.max - state.active + s.sides) / (s.sides + 1)

/-- Rust `Iterator::max_by` on payoff ordering: fold keeping the current
element when it is at least the accumulated one, so of several equal maxima
the last one in iteration order survives. -/
def maxByPayoff (l : List (ℕ × ℚ)) : Option (ℕ × ℚ) :=
  l.foldl
    (fun acc x =>
      match acc with
      | none => some x
      | some a => if a.2 ≤ x.2 then some x else some a)
    none

/-- `DpSolver::find_optimal_normal_action(state)` from
`src/code/src/dp/dp.rs`: maximize the payoff over dice counts
`(0..=maxOptimalN).rev()`; the reversed iteration order makes `max_by`
resolve ties toward the smaller dice count. -/
def DpSolver.find_optimal_normal_action (s : DpSolver) (state : State) :
    Action :=
  match maxByPayoff (((List.range (s.maxOptimalN state + 1)).reverse).map
      (fun dice_rolled => (dice_rolled, s.calc_normal_payoff state dice_rolled))) with
  | some (n, payoff) => ⟨n, payoff⟩
  | none => default

/-- The `(turn, next)` enumeration of `DpSolver::solve_terminal_states`:
all pairs with both coordinates in `0..=max`. -/
def terminalPairs (max : ℕ) : List (ℕ × ℕ) :=
  (List.range (max + 1)).flatMap
    (fun turn => (List.range (max + 1)).map (fun next => (turn, next)))

/-- `DpSolver::solve_terminal_states`: compute every terminal action against
the pre-write solver, then commit all writes. -/
def DpSolver.solve_terminal_states (s : DpSolver) : DpSolver :=
  let actions := (terminalPairs s.max).map
    (fun p => (State.mk p.1 p.2 true,
      s.find_optimal_terminal_action (State.mk p.1 p.2 true)))
  { s with policy := actions.foldl (fun pol sa => pol.set sa.1 sa.2) s.policy }

/-- The `(turn, next)` pairs of one `order` level of
`DpSolver::solve_normal_states`: for `place` in `0..=min(order, 2*max-order)`,
`(order-place, place)` below the diagonal and
`(max-place, order-max+place)` at or above it. -/
def normalOrderPairs (max order : ℕ) : List (ℕ × ℕ) :=
  (List.range (Nat.min order (2 * max - order) + 1)).map
    (fun place =>
      if order < max then (order - place, place)
      else (max - place, order - max + place))

/-- One `order` level of `DpSolver::solve_normal_states`: compute every
action of the level against the pre-write solver, then commit all writes. -/
def DpSolver.solveNormalOrder (s : DpSolver) (order : ℕ) : DpSolver :=
  let actions := (normalOrderPairs s.max order).map
    (fun p => (State.mk p.1 p.2 false,
      s.find_optimal_normal_action (State.mk p.1 p.2 false)))
  { s with policy := actions.foldl (fun pol sa => pol.set sa.1 sa.2) s.policy }

/-- `DpSolver::solve_normal_states`: process the order levels
`(0..=2*max).rev()` sequentially, highest total first. -/
def DpSolver.solve_normal_states (s : DpSolver) : DpSolver :=
  ((List.range (2 * s.max + 1)).reverse).foldl DpSolver.solveNormalOrder s

/-- `DpSolver::solve`: precompute the PMFs, then the terminal stage, then the
normal stage. -/
def DpSolver.solve (s : DpSolver) : DpSolver :=
  s.precompute_pmfs.solve_terminal_states.solve_normal_states

/-- Reference definition of the terminal payoff, written from the spec text
(section 4.3 step 4): sum over every dice total `t` in `[n, n*s]` of
`P(t|n)` weighted `+1` on a win (`a+t > q` and `a+t <= M`), `-1` on a loss or
bust (`a+t < q` or `a+t > M`), and `0` on a draw (`a+t = q`); for `n = 0` the
sign of comparing `a` with `q`. -/
def calcTerminalPayoffSpec (s : DpSolver) (state : State) (n : ℕ) : ℚ :=
  if n = 0 then
    if state.active < state.queued then -1
    else if state.active = state.queued then 0
    else 1
  else
    ∑ t in Finset.Icc n (n * s.sides),
      s.pmfs.lookup n t *
        (if state.queued < state.active + t ∧ state.active + t ≤ s.max then 1
         else if state.active + t < state.queued ∨ s.max < state.active + t
           then -1
         else 0)

/-- Reference definition of the normal payoff, written from the spec text
(section 4.4 step 3): for `n = 0` the negation of the stored payoff of the
role-swapped terminal state; otherwise the sum over every dice total `t` in
`[n, n*s]` of `P(t|n)` times the negated stored payoff of the successor
normal state when `a+t <= M` and `-1` on a bust. -/
def calcNormalPayoffSpec (s : DpSolver) (state : State) (n : ℕ) : ℚ :=
  if n = 0 then
    -(s.policy.get ⟨state.queued, state.active, true⟩).payoff
  else
    ∑ t in Finset.Icc n (n * s.sides),
      s.pmfs.lookup n t *
        (if state.active + t ≤ s.max then
          -(s.policy.get ⟨state.queued, state.active + t, false⟩).payoff
         else -1)

lemma foldl_add_eq (g : ℕ → ℚ) (l : List ℕ) (a : ℚ) :
    l.foldl (fun acc t => acc + g t) a = a + (l.map g).sum := by
  induction l generalizing a with
  | nil => simp
  | cons x xs ih => simp [ih, add_assoc]

lemma sum_Icc_eq_map_range' {M : Type} [AddCommMonoid M] (g : ℕ → M)
    (n m : ℕ) :
    (∑ t in Finset.Icc n m, g t) = ((List.range' n (m + 1 - n)).map g).sum := by
  rw [Nat.Icc_eq_range']
  simp [Finset.sum, Multiset.map_coe, Multiset.sum_coe]

/-- C1: for every solver state and dice count, `calc_normal_payoff` of the
`DpSolver` equals the reference definition from the spec: for `n = 0` the
negated stored terminal payoff of the role-swapped state, and for `n >= 1`
the sum over all dice totals `t` in `[n, n*s]` of `P(t|n)` times the negated
stored payoff of the successor normal state when `active + t <= max`, and
`-1` on a bust. -/
theorem C1_calc_normal_payoff_eq_spec (s : DpSolver) (state : State) (n : ℕ) :
    s.calc_normal_payoff state n = calcNormalPayoffSpec s state n := by
  unfold DpSolver.calc_normal_payoff calcNormalPayoffSpec
  by_cases hn : n = 0
  · simp [hn]
  · rw [if_neg hn, if_neg hn, sum_Icc_eq_map_range', Nat.mul_comm n s.sides,
      foldl_add_eq (fun t => s.pmfs.lookup n t *
        (if state.active + t ≤ s.max then
          -(s.policy.get ⟨state.queued, state.active + t, false⟩).payoff
         else -1)), zero_add]

/-- C2: for every solver, every state with in-range opponent score, and every
dice count, `calc_terminal_payoff` equals the reference definition from the
spec: for `n = 0` the sign of `active` compared with `queued`; for `n >= 1`
the sum over all dice totals `t` in `[n, n*s]` of `P(t|n)` weighted `+1` on a
win, `-1` on a loss or bust, and `0` on a draw. -/
theorem C2_calc_terminal_payoff_eq_spec (s : DpSolver) (state : State) (n : ℕ)
    (hq : state.queued ≤ s.max) :
    s.calc_terminal_payoff state n = calcTerminalPayoffSpec s state n := by
  unfold DpSolver.calc_terminal_payoff calcTerminalPayoffSpec
  by_cases hn : n = 0
  · simp [hn]
  · have hstep : (fun (acc : ℚ) (dice_total : ℕ) =>
        let probability := s.pmfs.lookup n dice_total
        if state.queued < state.active + dice_total ∧
            state.active + dice_total ≤ s.max then
          acc + probability
        else if state.active + dice_total < state.queued ∨
            state.queued < state.active + dice_total then
          acc - probability
        else acc) =
        (fun acc t => acc + s.pmfs.lookup n t *
          (if state.queued < state.active + t ∧ state.active + t ≤ s.max
            then 1
           else if state.active + t < state.queued ∨
              s.max < state.active + t then -1
           else 0)) := by
      funext acc t
      by_cases hwin : state.queued < state.active + t ∧ state.active + t ≤ s.max
      · simp [hwin]
      · by_cases heq : state.active + t = state.queued
        · have h1 : ¬(state.active + t < state.queued ∨
              state.queued < state.active + t) := by omega
          have h2 : ¬(state.active + t < state.queued ∨
              s.max < state.active + t) := by omega
          simp [hwin, h1, h2]
        · have h1 : state.active + t < state.queued ∨
              state.queued < state.active + t := by omega
          have h2 : state.active + t < state.queued ∨
              s.max < state.active + t := by omega
          simp [hwin, h1, h2]
          ring
    rw [if_neg hn, if_neg hn, hstep, foldl_add_eq, zero_add,
      sum_Icc_eq_map_range', Nat.mul_comm n s.sides]

/-- Witness for C2 at a concrete input. -/
theorem C2_witness :
    (⟨1, 2, true⟩ : State).queued ≤ (DpSolver.new 3 2).max ∧
    (DpSolver.new 3 2).calc_terminal_payoff ⟨1, 2, true⟩ 1 =
      calcTerminalPayoffSpec (DpSolver.new 3 2) ⟨1, 2, true⟩ 1 :=
  ⟨by decide, C2_calc_terminal_payoff_eq_spec (DpSolver.new 3 2) ⟨1, 2, true⟩ 1
    (by decide)⟩

/-- C3: a terminal state with a strict lead is answered by standing with
payoff exactly `+1`; and when rolling `queued - active + 1` dice can neither
fall short of the lead nor bust (`sides*(queued-active+1) <= max-active`),
that dice count is returned with payoff exactly `+1`. -/
theorem C3_find_optimal_terminal_action_sure_win (s : DpSolver)
    (state : State) :
    (state.queued < state.active →
      s.find_optimal_terminal_action state = ⟨0, 1⟩) ∧
    (state.active ≤ state.queued →
      s.sides * (state.queued - state.active + 1) ≤ s.max - state.active →
      s.find_optimal_terminal_action state =
        ⟨state.queued - state.active + 1, 1⟩) := by
  constructor
  · intro h
    simp [DpSolver.find_optimal_terminal_action, h]
  · intro h hwin
    have h1 : ¬state.queued < state.active := by omega
    simp [DpSolver.find_optimal_terminal_action, h1, hwin]

/-- Witness for C3 at concrete inputs. -/
theorem C3_witness :
    ((⟨2, 1, true⟩ : State).queued < (⟨2, 1, true⟩ : State).active ∧
      (DpSolver.new 13 2).find_optimal_terminal_action ⟨2, 1, true⟩ = ⟨0, 1⟩) ∧
    ((⟨1, 1, true⟩ : State).active ≤ (⟨1, 1, true⟩ : State).queued ∧
      (DpSolver.new 13 2).sides * 1 ≤ (DpSolver.new 13 2).max - 1 ∧
      (DpSolver.new 13 2).find_optimal_terminal_action ⟨1, 1, true⟩ = ⟨1, 1⟩) :=
  ⟨⟨by decide,
      (C3_find_optimal_terminal_action_sure_win (DpSolver.new 13 2)
        ⟨2, 1, true⟩).1 (by decide)⟩,
    ⟨by decide, by decide,
      (C3_find_optimal_terminal_action_sure_win (DpSolver.new 13 2)
        ⟨1, 1, true⟩).2 (by decide) (by decide)⟩⟩

/-- The pure two-argument step of Rust `Iterator::max_by` once the
accumulator is populated: keep the newer element on ties. -/
def payoffStep (a x : ℕ × ℚ) : ℕ × ℚ := if a.2 ≤ x.2 then x else a

lemma maxByPayoff_cons (x : ℕ × ℚ) (l : List (ℕ × ℚ)) :
    maxByPayoff (x :: l) = some (l.foldl payoffStep x) := by
  show List.foldl _ (some x) l = _
  induction l generalizing x with
  | nil => rfl
  | cons y ys ih =>
    show List.foldl _ (if x.2 ≤ y.2 then some y else some x) ys = _
    by_cases h : x.2 ≤ y.2
    · rw [if_pos h, ih y, List.foldl_cons, payoffStep, if_pos h]
    · rw [if_neg h, ih x, List.foldl_cons, payoffStep, if_neg h]

lemma descFold (f : ℕ → ℚ) :
    ∀ (k : ℕ) (acc r : ℕ × ℚ),
      r = (((List.range k).reverse.map (fun d => (d, f d))).foldl
        payoffStep acc) →
      (r = acc ∨ (r.1 < k ∧ r.2 = f r.1)) ∧ acc.2 ≤ r.2 ∧
        (∀ m, m < k → f m ≤ r.2) ∧ (∀ m, m < k → f m = r.2 → r.1 ≤ m) := by
  intro k
  induction k with
  | zero =>
    intro acc r hr
    simp only [List.range_zero, List.reverse_nil, List.map_nil,
      List.foldl_nil] at hr
    subst hr
    exact ⟨Or.inl rfl, le_refl _, fun m hm => absurd hm (Nat.not_lt_zero m),
      fun m hm => absurd hm (Nat.not_lt_zero m)⟩
  | succ k ih =>
    intro acc r hr
    rw [List.range_succ] at hr
    simp only [List.reverse_append, List.reverse_cons, List.reverse_nil,
      List.nil_append, List.singleton_append, List.map_cons,
      List.foldl_cons] at hr
    obtain ⟨hmem, hacc, hmax, hleast⟩ := ih (payoffStep acc (k, f k)) r hr
    have hk : f k ≤ (payoffStep acc (k, f k)).2 := by
      unfold payoffStep
      split
      · exact le_refl _
      · exact le_of_not_le (by assumption)
    have hsome : acc.2 ≤ (payoffStep acc (k, f k)).2 := by
      unfold payoffStep
      split
      · assumption
      · exact le_refl _
    refine ⟨?_, le_trans hsome hacc, ?_, ?_⟩
    · rcases hmem with hmem | hmem
      · unfold payoffStep at hmem
        by_cases hc : acc.2 ≤ f k
        · rw [if_pos hc] at hmem
          right
          rw [hmem]
          exact ⟨Nat.lt_succ_self k, rfl⟩
        · rw [if_neg hc] at hmem
          left
          exact hmem
      · right
        exact ⟨Nat.lt_succ_of_lt hmem.1, hmem.2⟩
    · intro m hm
      rcases Nat.lt_succ_iff_lt_or_eq.mp hm with hm | hm
      · exact hmax m hm
      · rw [hm]
        exact le_trans hk hacc
    · intro m hm hfm
      rcases Nat.lt_succ_iff_lt_or_eq.mp hm with hm | hm
      · exact hleast m hm hfm
      · rcases hmem with hmem | hmem
        · unfold payoffStep at hmem
          by_cases hc : acc.2 ≤ f k
          · rw [if_pos hc] at hmem
            rw [hmem, hm]
          · rw [if_neg hc] at hmem
            rw [hmem] at hfm ⊢
            rw [hm] at hfm
            exact absurd (le_of_eq hfm.symm) hc
        · omega

lemma find_optimal_normal_action_eq_fold (s : DpSolver) (state : State) :
    s.find_optimal_normal_action state =
      Action.mk
        (((List.range (s.maxOptimalN state)).reverse.map
          (fun d => (d, s.calc_normal_payoff state d))).foldl payoffStep
          (s.maxOptimalN state,
            s.calc_normal_payoff state (s.maxOptimalN state))).1
        (((List.range (s.maxOptimalN state)).reverse.map
          (fun d => (d, s.calc_normal_payoff state d))).foldl payoffStep
          (s.maxOptimalN state,
            s.calc_normal_payoff state (s.maxOptimalN state))).2 := by
  unfold DpSolver.find_optimal_normal_action
  rw [List.range_succ]
  simp only [List.reverse_append, List.reverse_cons, List.reverse_nil,
    List.nil_append, List.singleton_append, List.map_cons]
  rw [maxByPayoff_cons]

/-- C4: `find_optimal_normal_action` returns an action whose dice count lies
in `[0, maxOptimalN]`, whose payoff is the computed payoff of that dice count
and is maximal among all dice counts in range, and whose dice count is the
smallest one attaining that maximum (ties break toward the less aggressive
action). -/
theorem C4_find_optimal_normal_action_least_tie (s : DpSolver)
    (state : State) :
    (s.find_optimal_normal_action state).n ≤ s.maxOptimalN state ∧
    (s.find_optimal_normal_action state).payoff =
      s.calc_normal_payoff state (s.find_optimal_normal_action state).n ∧
    (∀ m, m ≤ s.maxOptimalN state →
      s.calc_normal_payoff state m ≤
        (s.find_optimal_normal_action state).payoff) ∧
    (∀ m, m ≤ s.maxOptimalN state →
      s.calc_normal_payoff state m =
        (s.find_optimal_normal_action state).payoff →
      (s.find_optimal_normal_action state).n ≤ m) := by
  obtain ⟨hmem, hacc, hmax, hleast⟩ :=
    descFold (fun d => s.calc_normal_payoff state d) (s.maxOptimalN state)
      (s.maxOptimalN state, s.calc_normal_payoff state (s.maxOptimalN state))
      (((List.range (s.maxOptimalN state)).reverse.map
        (fun d => (d, s.calc_normal_payoff state d))).foldl payoffStep
        (s.maxOptimalN state,
          s.calc_normal_payoff state (s.maxOptimalN state)))
      rfl
  rw [find_optimal_normal_action_eq_fold]
  have hn : (Action.mk
      (((List.range (s.maxOptimalN state)).reverse.map
        (fun d => (d, s.calc_normal_payoff state d))).foldl payoffStep
        (s.maxOptimalN state,
          s.calc_normal_payoff state (s.maxOptimalN state))).1
      (((List.range (s.maxOptimalN state)).reverse.map
        (fun d => (d, s.calc_normal_payoff state d))).foldl payoffStep
        (s.maxOptimalN state,
          s.calc_normal_payoff state (s.maxOptimalN state))).2).n ≤
      s.maxOptimalN state := by
    rcases hmem with hmem | hmem
    · show (_ : ℕ × ℚ).1 ≤ _
      rw [hmem]
    · exact le_of_lt hmem.1
  refine ⟨hn, ?_, ?_, ?_⟩
  · rcases hmem with hmem | hmem
    · show (_ : ℕ × ℚ).2 = _
      rw [hmem]
    · exact hmem.2
  · intro m hm
    rcases Nat.lt_or_ge m (s.maxOptimalN state) with hlt | hge
    · exact hmax m hlt
    · have hmeq : m = s.maxOptimalN state := by omega
      subst hmeq
      exact hacc
  · intro m hm hfm
    rcases Nat.lt_or_ge m (s.maxOptimalN state) with hlt | hge
    · exact hleast m hlt hfm
    · have hmeq : m = s.maxOptimalN state := by omega
      subst hmeq
      exact hn

/-- Witness for C4 at a concrete input. -/
theorem C4_witness :
    (0 ≤ (DpSolver.new 4 2).maxOptimalN ⟨0, 0, false⟩ ∧
      (DpSolver.new 4 2).calc_normal_payoff ⟨0, 0, false⟩ 0 ≤
        ((DpSolver.new 4 2).find_optimal_normal_action ⟨0, 0, false⟩).payoff) :=
  ⟨Nat.zero_le _,
    (C4_find_optimal_normal_action_least_tie (DpSolver.new 4 2)
      ⟨0, 0, false⟩).2.2.1 0 (Nat.zero_le _)⟩

/-- `APPROXIMATION_TABLE` from `src/code/src/pmf.rs`: index `s` gives the
minimum dice count from which the normal approximation is used. -/
def approximationTable : List ℕ :=
  [65535, 65535, 200, 106, 76, 59, 48, 39, 33, 29, 26, 23, 21, 19, 17, 15,
   14, 13, 12, 12, 11, 10, 10, 9, 9, 9, 8, 8, 8, 7, 7, 7, 7, 6, 6, 6, 6, 6,
   6, 5, 5, 5, 5, 5, 5, 5, 5, 5, 4, 4, 4, 4, 4, 4, 2, 2, 2, 2, 2, 2, 2, 2,
   2, 2, 2, 2, 2, 2, 2, 2, 2, 2, 2, 2, 2, 2, 2, 2, 2, 2, 2, 2, 2, 2, 2, 2,
   2, 2, 2, 2, 2, 2, 2, 2, 2, 2, 2, 2, 2, 2, 2, 2, 2, 2, 2, 2, 2, 2, 2, 2,
   2, 2, 2, 2, 2, 2, 2, 2, 2, 2, 2, 2, 2, 2, 2, 2, 2, 2, 2, 2, 2, 2, 2, 2,
   2, 2, 2, 2, 2, 2, 2, 2, 2, 2, 2, 2, 2, 2, 2, 2, 2, 2, 2, 2, 2, 2, 2, 2,
   2, 2, 2, 2, 2, 2, 2, 2, 2, 2, 2, 2, 2, 2, 2, 2, 2, 2, 2, 2, 2, 2, 2, 2,
   2, 2, 2, 2, 2, 2, 2, 2, 2, 2, 2, 2, 2, 2, 2, 2, 2, 2, 2, 1]

/-- `combinations(n, k)` from `src/code/src/pmf.rs`: the binomial coefficient
computed as a quotient of partial factorial products (exact division on the
reachable inputs; embedded with truncating natural division like `BigInt`
division). -/
def combinations (n k : ℕ) : ℕ :=
  let cutoff := if k < n - k then n - k else k
  (List.range' (cutoff + 1) (n - cutoff)).foldl (fun acc x => acc * x) 1 /
    (List.range' 1 (n - cutoff)).foldl (fun acc x => acc * x) 1

/-- `pmf_exact(total, n, s)` from `src/code/src/pmf.rs`: the
inclusion-exclusion count of compositions divided by `s^n`.  The first guard
is `total < s || total > n*s`, exactly as in the source (`total < s`, not
`total < n`). -/
def pmf_exact (total n s : ℕ) : ℚ :=
  if total < s ∨ n * s < total then 0
  else
    let compositions : ℤ :=
      (List.range ((total - n) / s + 1)).foldl
        (fun acc k =>
          let term : ℤ := (combinations n k : ℤ) *
            (combinations (total - s * k - 1) (n - 1) : ℤ)
          if k % 2 = 0 then acc + term else acc - term) 0
    (compositions : ℚ) / ((s : ℚ)) ^ n

/-- The density of `statrs::distribution::Normal::new(mean, std_dev)` at `x`:
`statrs` takes the standard deviation as its second argument. -/
noncomputable def statrsNormalPdf (mean std_dev x : ℝ) : ℝ :=
  (std_dev * Real.sqrt (2 * Real.pi))⁻¹ *
    Real.exp (-((x - mean) ^ 2 / (2 * std_dev ^ 2)))

/-- `pmf_normal_approximation(total, n, s)` from `src/code/src/pmf.rs`,
embedded verbatim: the source computes `mean = n*s/2`, computes
`variance = n*(s^2-1)/12`, passes `variance` to the standard-deviation slot
of `Normal::new`, and evaluates the density at the z-score
`(total - mean)/sqrt(variance)` rather than at `total`.  The `u16`-to-`f64`
conversions are exact, so the float guards coincide with the `ℕ` guards. -/
noncomputable def pmf_normal_approximation (total n s : ℕ) : ℝ :=
  if n ≤ 1 then (if total = n then 1 else 0)
  else if total < n ∨ n * s < total then 0
  else
    statrsNormalPdf ((n : ℝ) * (s : ℝ) / 2)
      ((n : ℝ) * ((s : ℝ) ^ 2 - 1) / 12)
      (((total : ℝ) - (n : ℝ) * (s : ℝ) / 2) /
        Real.sqrt ((n : ℝ) * ((s : ℝ) ^ 2 - 1) / 12))

/-- `pmf(total, n, s)` from `src/code/src/pmf.rs`: the guard cascade of the
`match`, dispatching between the exact formula and the normal
approximation by the per-sides threshold table. -/
noncomputable def pmf (total n s : ℕ) : ℝ :=
  if n = 0 ∨ s = 0 then 0
  else if total < n ∨ n * s < total then 0
  else if s = 1 then (if n ≠ total then 1 else 0)
  else if s < 202 then
    if n < approximationTable.getD s 0 then ((pmf_exact total n s : ℚ) : ℝ)
    else pmf_normal_approximation total n s
  else pmf_normal_approximation total n s

/-- Reference definition following the claim and the spec (section 4.1):
the Gaussian density evaluated at the target point `total`, with the true
mean `n*(s+1)/2` and the true variance `n*(s^2-1)/12` of a sum of `n`
uniform faces `1..s` (standard deviation the square root of the variance). -/
noncomputable def gaussianApproxSpec (total n s : ℕ) : ℝ :=
  statrsNormalPdf ((n : ℝ) * ((s : ℝ) + 1) / 2)
    (Real.sqrt ((n : ℝ) * ((s : ℝ) ^ 2 - 1) / 12)) (total : ℝ)

/-- C10: the `pmf` function returns `0.0` whenever `n = 0` or `s = 0` (in
particular `pmf(0,0,s) = 0` although the sum of zero dice is `0` with
certainty), while the precomputed `PMFLookup` stores probability `1.0` in
its `n = 0, total = 0` entry. -/
theorem C10_pmf_degenerate_zero :
    (∀ total s : ℕ, pmf total 0 s = 0) ∧
    (∀ total n : ℕ, pmf total n 0 = 0) ∧
    (∀ max sides : ℕ, (PMFLookup.precompute max sides).lookup 0 0 = 1) := by
  refine ⟨fun total s => by simp [pmf], fun total n => by simp [pmf], ?_⟩
  intro max sides
  unfold PMFLookup.precompute PMFLookup.lookup
  simp only []
  rw [List.range_succ_eq_map]
  simp [iteratedConv]

lemma pmf_exact_one_six (t : ℕ) (h1 : 1 ≤ t) (h5 : t ≤ 5) :
    pmf_exact t 1 6 = 0 := by
  have h : t < 6 := by omega
  simp [pmf_exact, h]

lemma pmf_exact_six : pmf_exact 6 1 6 = 1/6 := by
  have hr : List.range 1 = [0] := rfl
  have hc1 : combinations 1 0 = 1 := rfl
  have hc5 : combinations 5 0 = 1 := rfl
  norm_num [pmf_exact, hr, hc1, hc5]

lemma pmf_one_six (t : ℕ) (h1 : 1 ≤ t) (h6 : t ≤ 6) :
    pmf t 1 6 = ((pmf_exact t 1 6 : ℚ) : ℝ) := by
  have hg : ¬(t < 1 ∨ 1 * 6 < t) := by omega
  unfold pmf
  rw [if_neg (by norm_num), if_neg hg, if_neg (by norm_num),
    if_pos (by norm_num), if_pos (by decide)]

/-- C6: the PMF of one six-sided die does not sum to `1`: the source guard
`total < s` in `pmf_exact` zeroes out every total below `s`, so the six
probabilities sum to `1/6`, far outside the claimed `1e-9` tolerance. -/
theorem C6_pmf_sum_bug :
    (∑ t in Finset.Icc 1 6, pmf t 1 6) = 1/6 ∧
    (1 : ℝ)/1000000000 < |(∑ t in Finset.Icc 1 6, pmf t 1 6) - 1| := by
  have e1 : pmf 1 1 6 = 0 := by
    rw [pmf_one_six 1 le_rfl (by norm_num), pmf_exact_one_six 1 le_rfl
      (by norm_num)]
    norm_num
  have e2 : pmf 2 1 6 = 0 := by
    rw [pmf_one_six 2 (by norm_num) (by norm_num), pmf_exact_one_six 2
      (by norm_num) (by norm_num)]
    norm_num
  have e3 : pmf 3 1 6 = 0 := by
    rw [pmf_one_six 3 (by norm_num) (by norm_num), pmf_exact_one_six 3
      (by norm_num) (by norm_num)]
    norm_num
  have e4 : pmf 4 1 6 = 0 := by
    rw [pmf_one_six 4 (by norm_num) (by norm_num), pmf_exact_one_six 4
      (by norm_num) (by norm_num)]
    norm_num
  have e5 : pmf 5 1 6 = 0 := by
    rw [pmf_one_six 5 (by norm_num) (by norm_num), pmf_exact_one_six 5
      (by norm_num) (by norm_num)]
    norm_num
  have e6 : pmf 6 1 6 = ((1/6 : ℚ) : ℝ) := by
    rw [pmf_one_six 6 (by norm_num) le_rfl, pmf_exact_six]
  have hsum : (∑ t in Finset.Icc 1 6, pmf t 1 6) = 1/6 := by
    rw [sum_Icc_eq_map_range']
    norm_num [show List.range' 1 6 = [1, 2, 3, 4, 5, 6] from rfl,
      e1, e2, e3, e4, e5, e6]
  refine ⟨hsum, ?_⟩
  rw [hsum, show (1/6 : ℝ) - 1 = -(5/6) by norm_num, abs_neg,
    abs_of_nonneg (by norm_num)]
  norm_num

lemma statrsNormalPdf_le (mean sd x : ℝ) (hsd : 0 ≤ sd) :
    statrsNormalPdf mean sd x ≤ (sd * Real.sqrt (2 * Real.pi))⁻¹ := by
  unfold statrsNormalPdf
  have hE : Real.exp (-((x - mean) ^ 2 / (2 * sd ^ 2))) ≤ 1 :=
    Real.exp_le_one_iff.mpr (neg_nonpos.mpr (by positivity))
  have hc : 0 ≤ (sd * Real.sqrt (2 * Real.pi))⁻¹ := by positivity
  calc (sd * Real.sqrt (2 * Real.pi))⁻¹ *
        Real.exp (-((x - mean) ^ 2 / (2 * sd ^ 2)))
      ≤ (sd * Real.sqrt (2 * Real.pi))⁻¹ * 1 :=
        mul_le_mul_of_nonneg_left hE hc
    _ = (sd * Real.sqrt (2 * Real.pi))⁻¹ := mul_one _

lemma statrsNormalPdf_at_mean (mean sd : ℝ) :
    statrsNormalPdf mean sd mean = (sd * Real.sqrt (2 * Real.pi))⁻¹ := by
  unfold statrsNormalPdf
  simp

/-- C5: the normal-approximation branch does not compute the claimed Gaussian
density.  At `s = 6` the threshold is `48`; at `n = 48`, `total = 168` the
source evaluates `Normal::new(mean, variance).pdf(z)` with `mean = n*s/2 =
144` (not `n*(s+1)/2 = 168`), with the variance `140` passed into the
standard-deviation slot, and at the z-score instead of the target point; its
value is strictly below the claimed density. -/
theorem C5_normal_approximation_bug :
    approximationTable.getD 6 0 ≤ 48 ∧
    pmf_normal_approximation 168 48 6 < gaussianApproxSpec 168 48 6 := by
  refine ⟨by decide, ?_⟩
  have hcode : pmf_normal_approximation 168 48 6 =
      statrsNormalPdf 144 140 (((168 : ℝ) - 144) / Real.sqrt 140) := by
    unfold pmf_normal_approximation
    rw [if_neg (by norm_num), if_neg (by norm_num)]
    norm_num
  have hspec : gaussianApproxSpec 168 48 6 =
      statrsNormalPdf 168 (Real.sqrt 140) 168 := by
    unfold gaussianApproxSpec
    norm_num
  have hsqrtpi : (0 : ℝ) < Real.sqrt (2 * Real.pi) := by
    apply Real.sqrt_pos.mpr
    positivity
  calc pmf_normal_approximation 168 48 6
      = statrsNormalPdf 144 140 (((168 : ℝ) - 144) / Real.sqrt 140) := hcode
    _ ≤ ((140 : ℝ) * Real.sqrt (2 * Real.pi))⁻¹ :=
        statrsNormalPdf_le 144 140 _ (by norm_num)
    _ < (Real.sqrt 140 * Real.sqrt (2 * Real.pi))⁻¹ := by
        apply inv_strictAnti₀ (by positivity)
        apply mul_lt_mul_of_pos_right _ hsqrtpi
        rw [Real.sqrt_lt' (by norm_num)]
        norm_num
    _ = statrsNormalPdf 168 (Real.sqrt 140) 168 :=
        (statrsNormalPdf_at_mean 168 (Real.sqrt 140)).symm
    _ = gaussianApproxSpec 168 48 6 := hspec.symm

lemma dicePmf_two : dicePmf 2 = [(1:ℚ)/2, 1/2] := by
  norm_num [dicePmf, List.replicate]

lemma iteratedConv_two_one : iteratedConv (dicePmf 2) 1 = [(1:ℚ)/2, 1/2] := by
  show fft_convolve (iteratedConv (dicePmf 2) 0) (dicePmf 2) = _
  rw [show iteratedConv (dicePmf 2) 0 = [1] from rfl, dicePmf_two]
  norm_num [fft_convolve, show List.range 2 = [0, 1] from rfl,
    show List.range 1 = [0] from rfl, List.getD]

lemma iteratedConv_two_two :
    iteratedConv (dicePmf 2) 2 = [(1:ℚ)/4, 1/2, 1/4] := by
  show fft_convolve (iteratedConv (dicePmf 2) 1) (dicePmf 2) = _
  rw [iteratedConv_two_one, dicePmf_two]
  norm_num [fft_convolve, show List.range 3 = [0, 1, 2] from rfl,
    show List.range 2 = [0, 1] from rfl,
    show List.range 1 = [0] from rfl, List.getD]

lemma iteratedConv_two_three :
    iteratedConv (dicePmf 2) 3 = [(1:ℚ)/8, 3/8, 3/8, 1/8] := by
  show fft_convolve (iteratedConv (dicePmf 2) 2) (dicePmf 2) = _
  rw [iteratedConv_two_two, dicePmf_two]
  norm_num [fft_convolve, show List.range 4 = [0, 1, 2, 3] from rfl,
    show List.range 3 = [0, 1, 2] from rfl,
    show List.range 2 = [0, 1] from rfl,
    show List.range 1 = [0] from rfl, List.getD]

lemma precompute_two_two_data :
    (PMFLookup.precompute 2 2).data =
      [1, (1:ℚ)/2, 1/2, 1/4, 1/2, 1/4, 1/8, 3/8, 3/8, 1/8] := by
  show (((List.range 4).map (iteratedConv (dicePmf 2))).flatten) = _
  rw [show List.range 4 = [0, 1, 2, 3] from rfl]
  simp only [List.map_cons, List.map_nil]
  rw [show iteratedConv (dicePmf 2) 0 = [1] from rfl, iteratedConv_two_one,
    iteratedConv_two_two, iteratedConv_two_three]
  rfl

/-- Counterexample for C7: in the table precomputed for `max = 2, sides = 2`
the query `n = 1, total = 3` is out of range (`total > n*sides`), yet
`lookup_safe` returns `1/4` — the first entry of the two-dice PMF — because
the flat index stays inside the data array. -/
theorem C7_lookup_safe_counterexample :
    1 * 2 < 3 ∧
    (PMFLookup.precompute 2 2).lookup_safe 1 3 ≠ 0 := by
  refine ⟨by norm_num, ?_⟩
  have hval : (PMFLookup.precompute 2 2).lookup_safe 1 3 = 1/4 := by
    unfold PMFLookup.lookup_safe
    rw [if_neg (by decide), if_pos (by decide),
      show (PMFLookup.precompute 2 2).offsets.getD 1 0 + (3 - 1) = 3 from rfl,
      precompute_two_two_data]
    rfl
  rw [hval]
  norm_num

/-- C7 (amended): `lookup_safe` returns `0.0` exactly on the queries whose
flat index falls outside the table: `n` above the precomputed maximum,
`total < n`, or computed index at or past the end of the data array.  A query
with `total > n*sides` whose flat index still lands inside the data array
returns the stored entry of a neighboring PMF block instead (see the
counterexample). -/
theorem C7_lookup_safe_amended (t : PMFLookup) (n total : ℕ)
    (h : t.max_n < n ∨ total < n ∨
      t.data.length ≤ t.offsets.getD n 0 + (total - n)) :
    t.lookup_safe n total = 0 := by
  unfold PMFLookup.lookup_safe
  rcases h with h | h | h
  · rw [if_pos (Or.inl h)]
  · rw [if_pos (Or.inr h)]
  · by_cases h2 : n > t.max_n ∨ total < n
    · rw [if_pos h2]
    · rw [if_neg h2]
      simp only []
      rw [if_neg (by omega)]

/-- Witness for the amended C7 at a concrete input. -/
theorem C7_witness :
    ((PMFLookup.precompute 2 2).max_n < 9 ∨ (9:ℕ) < 9 ∨
      (PMFLookup.precompute 2 2).data.length ≤
        (PMFLookup.precompute 2 2).offsets.getD 9 0 + (9 - 9)) ∧
    (PMFLookup.precompute 2 2).lookup_safe 9 9 = 0 :=
  ⟨Or.inl (by decide),
    C7_lookup_safe_amended (PMFLookup.precompute 2 2) 9 9
      (Or.inl (by decide))⟩

/-- The full `(turn, next)` enumeration of the normal stage: the order levels
`(0..=2*max).rev()` flattened, exactly as `solve_normal_states` visits
them. -/
def normalStateEnum (max : ℕ) : List (ℕ × ℕ) :=
  ((List.range (2 * max + 1)).reverse).flatMap (normalOrderPairs max)

/-- The linear policy indices written during one `solve()` call, in write
order: the terminal stage writes first, then the normal stage. -/
def solveWriteIndices (max : ℕ) : List ℕ :=
  (terminalPairs max).map (fun p => Policy.placement max ⟨p.1, p.2, true⟩) ++
    (normalStateEnum max).map (fun p => Policy.placement max ⟨p.1, p.2, false⟩)

lemma count_range_eq (n x : ℕ) :
    (List.range n).count x = if x < n then 1 else 0 := by
  by_cases h : x < n
  · rw [if_pos h]
    exact List.count_eq_one_of_mem (List.nodup_range n)
      (List.mem_range.mpr h)
  · rw [if_neg h, List.count_eq_zero]
    intro hc
    exact h (List.mem_range.mp hc)

lemma sum_map_indicator (N target : ℕ) (g : ℕ → ℕ)
    (hg : ∀ o, o < N → g o = if o = target then 1 else 0) :
    ((List.range N).map g).sum = if target < N then 1 else 0 := by
  induction N with
  | zero => simp
  | succ N ih =>
    rw [List.range_succ, List.map_append, List.sum_append,
      ih (fun o ho => hg o (Nat.lt_succ_of_lt ho)),
      List.map_cons, List.map_nil, List.sum_cons, List.sum_nil,
      hg N (Nat.lt_succ_self N)]
    by_cases h : target = N
    · subst h
      rw [if_pos rfl, if_neg (Nat.lt_irrefl target),
        if_pos (Nat.lt_succ_self target)]
      omega
    · rw [if_neg (fun hc : N = target => h hc.symm)]
      by_cases h2 : target < N
      · rw [if_pos h2, if_pos (Nat.lt_succ_of_lt h2)]
        omega
      · rw [if_neg h2, if_neg (by omega)]
        omega

lemma digit_unique (B a b x y : ℕ) (ha : a < B) (hx : x < B)
    (h : a + B * b = x + B * y) : a = x ∧ b = y := by
  have hmod : (a + B * b) % B = (x + B * y) % B := by rw [h]
  rw [Nat.add_mul_mod_self_left, Nat.add_mul_mod_self_left,
    Nat.mod_eq_of_lt ha, Nat.mod_eq_of_lt hx] at hmod
  refine ⟨hmod, ?_⟩
  subst hmod
  have hB : 0 < B := by omega
  exact Nat.eq_of_mul_eq_mul_left hB (by omega)

lemma mem_terminalPairs (max : ℕ) (p : ℕ × ℕ) :
    p ∈ terminalPairs max ↔ p.1 ≤ max ∧ p.2 ≤ max := by
  obtain ⟨a, b⟩ := p
  unfold terminalPairs
  simp only [List.mem_flatMap, List.mem_map, List.mem_range, Prod.mk.injEq]
  constructor
  · rintro ⟨turn, hturn, next, hnext, rfl, rfl⟩
    exact ⟨by omega, by omega⟩
  · rintro ⟨h1, h2⟩
    exact ⟨a, by omega, b, by omega, rfl, rfl⟩

lemma count_map_eq {α β : Type} [BEq α] [LawfulBEq α] [BEq β] [LawfulBEq β]
    (l : List α) (f : α → β) (y : β) (x₀ : α)
    (hchar : ∀ x ∈ l, f x = y ↔ x = x₀) :
    (l.map f).count y = l.count x₀ := by
  induction l with
  | nil => rfl
  | cons a as ih =>
    rw [List.map_cons, List.count_cons, List.count_cons,
      ih (fun x hx => hchar x (List.mem_cons_of_mem a hx))]
    have h := hchar a (List.mem_cons_self a as)
    by_cases hy : f a = y
    · rw [if_pos (beq_iff_eq.mpr hy), if_pos (beq_iff_eq.mpr (h.mp hy))]
    · rw [if_neg (fun hc => hy (beq_iff_eq.mp hc)),
        if_neg (fun hc => hy (h.mpr (beq_iff_eq.mp hc)))]

lemma count_map_zero {α β : Type} [BEq α] [LawfulBEq α] [BEq β] [LawfulBEq β]
    (l : List α) (f : α → β) (y : β) (hchar : ∀ x ∈ l, f x ≠ y) :
    (l.map f).count y = 0 := by
  rw [List.count_eq_zero]
  intro hmem
  obtain ⟨x, hx, hfx⟩ := List.mem_map.mp hmem
  exact hchar x hx hfx

lemma terminalPairs_count (max a q : ℕ) (ha : a ≤ max) (hq : q ≤ max) :
    (terminalPairs max).count (a, q) = 1 := by
  unfold terminalPairs
  rw [List.count_flatMap]
  rw [List.map_congr_left (g := fun turn => if turn = a then 1 else 0) ?heq]
  · rw [sum_map_indicator (max + 1) a _ (fun o ho => rfl), if_pos (by omega)]
  · intro turn hturn
    show (List.count (a, q) ((List.range (max + 1)).map
      (fun next => (turn, next)))) = if turn = a then 1 else 0
    by_cases h : turn = a
    · subst h
      have hchar : ∀ x ∈ List.range (max + 1),
          (turn, x) = (turn, q) ↔ x = q := by
        intro x hx
        simp
      rw [count_map_eq (List.range (max + 1)) (fun next => (turn, next))
        (turn, q) q hchar, count_range_eq, if_pos (by omega), if_pos rfl]
    · have hchar : ∀ x ∈ List.range (max + 1),
          (turn, x) ≠ (a, q) := by
        intro x hx hc
        exact h (congrArg Prod.fst hc)
      rw [count_map_zero (List.range (max + 1)) (fun next => (turn, next))
        (a, q) hchar, if_neg h]

lemma mem_normalOrderPairs (max o : ℕ) (ho : o ≤ 2 * max) (p : ℕ × ℕ)
    (hp : p ∈ normalOrderPairs max o) :
    p.1 ≤ max ∧ p.2 ≤ max ∧ p.1 + p.2 = o := by
  unfold normalOrderPairs at hp
  obtain ⟨place, hplace, rfl⟩ := List.mem_map.mp hp
  have hpl := List.mem_range.mp hplace
  have hm1 : Nat.min o (2 * max - o) ≤ o := Nat.min_le_left _ _
  have hm2 : Nat.min o (2 * max - o) ≤ 2 * max - o := Nat.min_le_right _ _
  by_cases hlt : o < max
  · simp only [if_pos hlt]
    omega
  · simp only [if_neg hlt]
    omega

lemma normalOrderPairs_count (max o a q : ℕ) (ha : a ≤ max) (hq : q ≤ max)
    (ho : o ≤ 2 * max) :
    (normalOrderPairs max o).count (a, q) = if o = a + q then 1 else 0 := by
  have hm1 : Nat.min o (2 * max - o) ≤ o := Nat.min_le_left _ _
  have hm2 : Nat.min o (2 * max - o) ≤ 2 * max - o := Nat.min_le_right _ _
  by_cases hs : o = a + q
  · subst hs
    rw [if_pos rfl]
    unfold normalOrderPairs
    by_cases hlt : a + q < max
    · have hble : q ≤ Nat.min (a + q) (2 * max - (a + q)) :=
        Nat.le_min.mpr ⟨by omega, by omega⟩
      have hchar : ∀ place ∈
          List.range (Nat.min (a + q) (2 * max - (a + q)) + 1),
          (if a + q < max then (a + q - place, place)
            else (max - place, a + q - max + place)) = (a, q) ↔
            place = q := by
        intro place hplace
        have hpl := List.mem_range.mp hplace
        simp only [if_pos hlt, Prod.mk.injEq]
        omega
      rw [count_map_eq _ _ _ q hchar, count_range_eq, if_pos (by omega)]
    · have hble : max - a ≤ Nat.min (a + q) (2 * max - (a + q)) :=
        Nat.le_min.mpr ⟨by omega, by omega⟩
      have hchar : ∀ place ∈
          List.range (Nat.min (a + q) (2 * max - (a + q)) + 1),
          (if a + q < max then (a + q - place, place)
            else (max - place, a + q - max + place)) = (a, q) ↔
            place = max - a := by
        intro place hplace
        have hpl := List.mem_range.mp hplace
        simp only [if_neg hlt, Prod.mk.injEq]
        omega
      rw [count_map_eq _ _ _ (max - a) hchar, count_range_eq,
        if_pos (by omega)]
  · rw [if_neg hs, List.count_eq_zero]
    intro hmem
    have := mem_normalOrderPairs max o ho (a, q) hmem
    exact hs (by omega)

lemma normalStateEnum_count (max a q : ℕ) (ha : a ≤ max) (hq : q ≤ max) :
    (normalStateEnum max).count (a, q) = 1 := by
  unfold normalStateEnum
  rw [List.count_flatMap, List.map_reverse, List.sum_reverse]
  rw [List.map_congr_left (g := fun o => if o = a + q then 1 else 0) ?heq]
  · rw [sum_map_indicator (2 * max + 1) (a + q) _ (fun o ho => rfl),
      if_pos (by omega)]
  · intro o hor
    have ho : o ≤ 2 * max := by
      have := List.mem_range.mp hor
      omega
    show (normalOrderPairs max o).count (a, q) = _
    exact normalOrderPairs_count max o a q ha hq ho

lemma mem_normalStateEnum (max : ℕ) (p : ℕ × ℕ)
    (hp : p ∈ normalStateEnum max) : p.1 ≤ max ∧ p.2 ≤ max := by
  unfold normalStateEnum at hp
  obtain ⟨o, ho, hpo⟩ := List.mem_flatMap.mp hp
  have ho2 : o ≤ 2 * max := by
    have := List.mem_range.mp (List.mem_reverse.mp ho)
    omega
  have := mem_normalOrderPairs max o ho2 p hpo
  exact ⟨this.1, this.2.1⟩

lemma placement_terminal (max a q : ℕ) :
    Policy.placement max ⟨a, q, true⟩ =
      (a + (max + 1) * q) + (max + 1) * (max + 1) := by
  unfold Policy.placement
  simp

lemma placement_normal (max a q : ℕ) :
    Policy.placement max ⟨a, q, false⟩ = a + (max + 1) * q := by
  unfold Policy.placement
  simp

lemma solveWriteIndices_count (max i : ℕ)
    (hi : i < 2 * ((max + 1) * (max + 1))) :
    (solveWriteIndices max).count i = 1 := by
  unfold solveWriteIndices
  rw [List.count_append]
  by_cases hlow : i < (max + 1) * (max + 1)
  · rw [count_map_zero _ _ _ ?hterm]
    · have hdivle : i / (max + 1) < max + 1 :=
        (Nat.div_lt_iff_lt_mul (Nat.succ_pos max)).mpr hlow
      rw [count_map_eq _ _ _ (i % (max + 1), i / (max + 1)) ?hnorm,
        normalStateEnum_count max _ _
          (by
            have := Nat.mod_lt i (show 0 < max + 1 by omega)
            omega)
          (by omega)]
      intro p hp
      have hb := mem_normalStateEnum max p hp
      rw [placement_normal]
      have hmd := Nat.mod_add_div i (max + 1)
      constructor
      · intro he
        have hdig := digit_unique (max + 1) p.1 p.2 (i % (max + 1))
          (i / (max + 1)) (by omega)
          (Nat.mod_lt i (show 0 < max + 1 by omega)) (by omega)
        exact Prod.ext hdig.1 hdig.2
      · intro he
        rw [he]
        show i % (max + 1) + (max + 1) * (i / (max + 1)) = i
        omega
    · intro p hp
      have hb := (mem_terminalPairs max p).mp hp
      rw [placement_terminal]
      have h1 : (max + 1) * p.2 ≤ (max + 1) * max :=
        Nat.mul_le_mul_left _ hb.2
      have h2 : (max + 1) * max + (max + 1) = (max + 1) * (max + 1) := by
        ring
      omega
  · have hj : i - (max + 1) * (max + 1) < (max + 1) * (max + 1) := by
      omega
    have hdivle : (i - (max + 1) * (max + 1)) / (max + 1) < max + 1 :=
      (Nat.div_lt_iff_lt_mul (Nat.succ_pos max)).mpr hj
    have hmd := Nat.mod_add_div (i - (max + 1) * (max + 1)) (max + 1)
    have hterm2 : ∀ p ∈ terminalPairs max,
        Policy.placement max ⟨p.1, p.2, true⟩ = i ↔
          p = ((i - (max + 1) * (max + 1)) % (max + 1),
            (i - (max + 1) * (max + 1)) / (max + 1)) := by
      intro p hp
      have hb := (mem_terminalPairs max p).mp hp
      rw [placement_terminal]
      constructor
      · intro he
        have hdig := digit_unique (max + 1) p.1 p.2
          ((i - (max + 1) * (max + 1)) % (max + 1))
          ((i - (max + 1) * (max + 1)) / (max + 1)) (by omega)
          (Nat.mod_lt _ (show 0 < max + 1 by omega)) (by omega)
        exact Prod.ext hdig.1 hdig.2
      · intro he
        rw [he]
        show (i - (max + 1) * (max + 1)) % (max + 1) +
          (max + 1) * ((i - (max + 1) * (max + 1)) / (max + 1)) +
          (max + 1) * (max + 1) = i
        omega
    have hnorm2 : ∀ p ∈ normalStateEnum max,
        Policy.placement max ⟨p.1, p.2, false⟩ ≠ i := by
      intro p hp
      have hb := mem_normalStateEnum max p hp
      rw [placement_normal]
      have h1 : (max + 1) * p.2 ≤ (max + 1) * max :=
        Nat.mul_le_mul_left _ hb.2
      have h2 : (max + 1) * max + (max + 1) = (max + 1) * (max + 1) := by
        ring
      omega
    rw [count_map_eq (terminalPairs max) _ i _ hterm2,
      count_map_zero (normalStateEnum max) _ i hnorm2,
      terminalPairs_count max _ _
        (by
          have := Nat.mod_lt (i - (max + 1) * (max + 1))
            (show 0 < max + 1 by omega)
          omega)
        (by omega)]

/-- C8: during one `solve()` call every policy slot is written exactly once:
the terminal stage enumeration contains each pair `(a, q)` with
`a, q <= max` exactly once, the normal stage's `(order, place)` enumeration
visits each such pair exactly once, and over both stages every linear policy
index below `2*(max+1)^2` is written exactly once — no slot twice, none
unwritten. -/
theorem C8_solve_writes_each_slot_once (max a q : ℕ) (ha : a ≤ max)
    (hq : q ≤ max) :
    (terminalPairs max).count (a, q) = 1 ∧
    (normalStateEnum max).count (a, q) = 1 ∧
    (∀ i, i < 2 * ((max + 1) * (max + 1)) →
      (solveWriteIndices max).count i = 1) :=
  ⟨terminalPairs_count max a q ha hq, normalStateEnum_count max a q ha hq,
    fun i hi => solveWriteIndices_count max i hi⟩

/-- Witness for C8 at a concrete input. -/
theorem C8_witness :
    (1 ≤ 2 ∧ 2 ≤ 2) ∧ (terminalPairs 2).count (1, 2) = 1 ∧
      (normalStateEnum 2).count (1, 2) = 1 ∧
      (solveWriteIndices 2).count 7 = 1 :=
  ⟨⟨by decide, by decide⟩,
    (C8_solve_writes_each_slot_once 2 1 2 (by decide) (by decide)).1,
    (C8_solve_writes_each_slot_once 2 1 2 (by decide) (by decide)).2.1,
    (C8_solve_writes_each_slot_once 2 1 2 (by decide) (by decide)).2.2 7
      (by decide)⟩

lemma Policy.max_set (p : Policy) (st : State) (act : Action) :
    (p.set st act).max = p.max := rfl

lemma Policy.length_set (p : Policy) (st : State) (act : Action) :
    (p.set st act).policy.length = p.policy.length := List.length_set _ _ _

lemma Policy.get_set_same (p : Policy) (st st2 : State) (act : Action)
    (hidx : Policy.placement p.max st = Policy.placement p.max st2)
    (hlen : Policy.placement p.max st < p.policy.length) :
    (p.set st act).get st2 = act := by
  unfold Policy.get Policy.set
  simp only [List.getD_eq_getElem?_getD, List.getElem?_set]
  rw [if_pos hidx, if_pos hlen]
  rfl

lemma Policy.get_set_ne (p : Policy) (st st2 : State) (act : Action)
    (hidx : Policy.placement p.max st ≠ Policy.placement p.max st2) :
    (p.set st act).get st2 = p.get st2 := by
  unfold Policy.get Policy.set
  simp only [List.getD_eq_getElem?_getD, List.getElem?_set]
  rw [if_neg hidx]

lemma foldl_set_max (writes : List (State × Action)) (p : Policy) :
    (writes.foldl (fun pol sa => pol.set sa.1 sa.2) p).max = p.max := by
  induction writes generalizing p with
  | nil => rfl
  | cons w ws ih => exact ih (p.set w.1 w.2)

lemma foldl_set_length (writes : List (State × Action)) (p : Policy) :
    (writes.foldl (fun pol sa => pol.set sa.1 sa.2) p).policy.length =
      p.policy.length := by
  induction writes generalizing p with
  | nil => rfl
  | cons w ws ih =>
    rw [List.foldl_cons, ih (p.set w.1 w.2), Policy.length_set]

lemma foldl_set_get_of_ne (writes : List (State × Action)) (p : Policy)
    (target : State)
    (hall : ∀ sa ∈ writes,
      Policy.placement p.max sa.1 ≠ Policy.placement p.max target) :
    (writes.foldl (fun pol sa => pol.set sa.1 sa.2) p).get target =
      p.get target := by
  induction writes generalizing p with
  | nil => rfl
  | cons w ws ih =>
    rw [List.foldl_cons,
      ih (p.set w.1 w.2) (fun sa hsa =>
        hall sa (List.mem_cons_of_mem w hsa)),
      Policy.get_set_ne p w.1 target w.2
        (hall w (List.mem_cons_self w ws))]

lemma foldl_set_get_of_allsame (writes : List (State × Action)) (p : Policy)
    (target : State) (v : Action)
    (hall : ∀ sa ∈ writes,
      Policy.placement p.max sa.1 = Policy.placement p.max target →
        sa.2 = v)
    (hinit : (∃ sa ∈ writes,
      Policy.placement p.max sa.1 = Policy.placement p.max target) ∨
      p.get target = v)
    (hlen : Policy.placement p.max target < p.policy.length) :
    (writes.foldl (fun pol sa => pol.set sa.1 sa.2) p).get target = v := by
  induction writes generalizing p with
  | nil =>
    rcases hinit with ⟨sa, hsa, _⟩ | h
    · exact absurd hsa (List.not_mem_nil sa)
    · exact h
  | cons w ws ih =>
    rw [List.foldl_cons]
    have hmax2 : (p.set w.1 w.2).max = p.max := rfl
    have hlen2 : Policy.placement (p.set w.1 w.2).max target <
        (p.set w.1 w.2).policy.length := by
      rw [hmax2, Policy.length_set]
      exact hlen
    apply ih (p.set w.1 w.2)
    · intro sa hsa he
      exact hall sa (List.mem_cons_of_mem w hsa) he
    · by_cases hw : Policy.placement p.max w.1 = Policy.placement p.max target
      · right
        rw [Policy.get_set_same p w.1 target w.2 hw (hw ▸ hlen)]
        exact hall w (List.mem_cons_self w ws) hw
      · rcases hinit with ⟨sa, hsa, hse⟩ | h
        · rcases List.mem_cons.mp hsa with rfl | hsa2
          · exact absurd hse hw
          · exact Or.inl ⟨sa, hsa2, hse⟩
        · right
          rw [Policy.get_set_ne p w.1 target w.2 hw]
          exact h
    · exact hlen2

lemma placement_lt (max a q : ℕ) (l : Bool) (ha : a ≤ max) (hq : q ≤ max) :
    Policy.placement max ⟨a, q, l⟩ < (max + 1) * (max + 1) * 2 := by
  have h1 : (max + 1) * q ≤ (max + 1) * max := Nat.mul_le_mul_left _ hq
  have h2 : (max + 1) * max + (max + 1) = (max + 1) * (max + 1) := by ring
  cases l
  · rw [placement_normal]
    omega
  · rw [placement_terminal]
    omega

lemma placement_normal_lt (max a q : ℕ) (ha : a ≤ max) (hq : q ≤ max) :
    Policy.placement max ⟨a, q, false⟩ < (max + 1) * (max + 1) := by
  have h1 : (max + 1) * q ≤ (max + 1) * max := Nat.mul_le_mul_left _ hq
  have h2 : (max + 1) * max + (max + 1) = (max + 1) * (max + 1) := by ring
  rw [placement_normal]
  omega

lemma placement_terminal_ge (max a q : ℕ) :
    (max + 1) * (max + 1) ≤ Policy.placement max ⟨a, q, true⟩ := by
  rw [placement_terminal]
  omega

lemma placement_inj (max a q a2 q2 : ℕ) (l l2 : Bool) (ha : a ≤ max)
    (hq : q ≤ max) (ha2 : a2 ≤ max) (hq2 : q2 ≤ max)
    (h : Policy.placement max ⟨a, q, l⟩ = Policy.placement max ⟨a2, q2, l2⟩) :
    a = a2 ∧ q = q2 ∧ l = l2 := by
  have hb1 : (max + 1) * q ≤ (max + 1) * max := Nat.mul_le_mul_left _ hq
  have hb2 : (max + 1) * q2 ≤ (max + 1) * max := Nat.mul_le_mul_left _ hq2
  have hsq : (max + 1) * max + (max + 1) = (max + 1) * (max + 1) := by ring
  cases l <;> cases l2
  · rw [placement_normal, placement_normal] at h
    have := digit_unique (max + 1) a q a2 q2 (by omega) (by omega) (by omega)
    exact ⟨this.1, this.2, rfl⟩
  · rw [placement_normal, placement_terminal] at h
    omega
  · rw [placement_terminal, placement_normal] at h
    omega
  · rw [placement_terminal, placement_terminal] at h
    have := digit_unique (max + 1) a q a2 q2 (by omega) (by omega) (by omega)
    exact ⟨this.1, this.2, rfl⟩

lemma solve_terminal_states_ruleset (s : DpSolver) :
    s.solve_terminal_states.ruleset = s.ruleset := rfl

lemma solve_terminal_states_pmfs (s : DpSolver) :
    s.solve_terminal_states.pmfs = s.pmfs := rfl

lemma solve_terminal_states_policy_max (s : DpSolver) :
    s.solve_terminal_states.policy.max = s.policy.max :=
  foldl_set_max _ _

lemma solve_terminal_states_policy_length (s : DpSolver) :
    s.solve_terminal_states.policy.policy.length =
      s.policy.policy.length :=
  foldl_set_length _ _

lemma solveNormalOrder_ruleset (s : DpSolver) (o : ℕ) :
    (s.solveNormalOrder o).ruleset = s.ruleset := rfl

lemma solveNormalOrder_pmfs (s : DpSolver) (o : ℕ) :
    (s.solveNormalOrder o).pmfs = s.pmfs := rfl

lemma solveNormalOrder_policy_max (s : DpSolver) (o : ℕ) :
    (s.solveNormalOrder o).policy.max = s.policy.max :=
  foldl_set_max _ _

lemma solveNormalOrder_policy_length (s : DpSolver) (o : ℕ) :
    (s.solveNormalOrder o).policy.policy.length =
      s.policy.policy.length :=
  foldl_set_length _ _

lemma foldl_orders_ruleset (orders : List ℕ) (s : DpSolver) :
    (orders.foldl DpSolver.solveNormalOrder s).ruleset = s.ruleset := by
  induction orders generalizing s with
  | nil => rfl
  | cons o os ih =>
    rw [List.foldl_cons, ih (s.solveNormalOrder o),
      solveNormalOrder_ruleset]

lemma foldl_orders_pmfs (orders : List ℕ) (s : DpSolver) :
    (orders.foldl DpSolver.solveNormalOrder s).pmfs = s.pmfs := by
  induction orders generalizing s with
  | nil => rfl
  | cons o os ih =>
    rw [List.foldl_cons, ih (s.solveNormalOrder o), solveNormalOrder_pmfs]

lemma foldl_orders_policy_max (orders : List ℕ) (s : DpSolver) :
    (orders.foldl DpSolver.solveNormalOrder s).policy.max =
      s.policy.max := by
  induction orders generalizing s with
  | nil => rfl
  | cons o os ih =>
    rw [List.foldl_cons, ih (s.solveNormalOrder o),
      solveNormalOrder_policy_max]

lemma foldl_orders_policy_length (orders : List ℕ) (s : DpSolver) :
    (orders.foldl DpSolver.solveNormalOrder s).policy.policy.length =
      s.policy.policy.length := by
  induction orders generalizing s with
  | nil => rfl
  | cons o os ih =>
    rw [List.foldl_cons, ih (s.solveNormalOrder o),
      solveNormalOrder_policy_length]

lemma solve_terminal_states_get (s : DpSolver) (a q : ℕ)
    (ha : a ≤ s.max) (hq : q ≤ s.max)
    (hmax : s.policy.max = s.max)
    (hlen : s.policy.policy.length = (s.max + 1) * (s.max + 1) * 2) :
    s.solve_terminal_states.policy.get ⟨a, q, true⟩ =
      s.find_optimal_terminal_action ⟨a, q, true⟩ := by
  show (((terminalPairs s.max).map
    (fun p => (State.mk p.1 p.2 true,
      s.find_optimal_terminal_action (State.mk p.1 p.2 true)))).foldl
    (fun pol sa => pol.set sa.1 sa.2) s.policy).get ⟨a, q, true⟩ = _
  apply foldl_set_get_of_allsame
  · intro sa hsa he
    obtain ⟨p, hp, rfl⟩ := List.mem_map.mp hsa
    have hb := (mem_terminalPairs s.max p).mp hp
    rw [hmax] at he
    have hinj := placement_inj s.max p.1 p.2 a q true true hb.1 hb.2 ha hq he
    rw [hinj.1, hinj.2.1]
  · left
    refine ⟨(State.mk a q true, s.find_optimal_terminal_action
      (State.mk a q true)), ?_, rfl⟩
    exact List.mem_map.mpr ⟨(a, q), (mem_terminalPairs s.max (a, q)).mpr
      ⟨ha, hq⟩, rfl⟩
  · rw [hmax, hlen]
    exact placement_lt s.max a q true ha hq

lemma solveNormalOrder_get_untouched (s : DpSolver) (o : ℕ) (target : State)
    (hmax : s.policy.max = s.max)
    (ho : o ≤ 2 * s.max)
    (htar : target.last = true ∨
      (target.active ≤ s.max ∧ target.queued ≤ s.max ∧
        target.last = false ∧ target.active + target.queued ≠ o)) :
    (s.solveNormalOrder o).policy.get target = s.policy.get target := by
  show (((normalOrderPairs s.max o).map
    (fun p => (State.mk p.1 p.2 false,
      s.find_optimal_normal_action (State.mk p.1 p.2 false)))).foldl
    (fun pol sa => pol.set sa.1 sa.2) s.policy).get target = _
  apply foldl_set_get_of_ne
  intro sa hsa
  obtain ⟨p, hp, rfl⟩ := List.mem_map.mp hsa
  have hb := mem_normalOrderPairs s.max o ho p hp
  rw [hmax]
  obtain ⟨ta, tq, tl⟩ := target
  rcases htar with htl | ⟨hta, htq, htl, hto⟩
  · cases tl
    · exact absurd htl (by simp)
    · show Policy.placement s.max (State.mk p.1 p.2 false) ≠
        Policy.placement s.max (State.mk ta tq true)
      intro he
      have h1 := placement_normal_lt s.max p.1 p.2 hb.1 hb.2.1
      have h2 := placement_terminal_ge s.max ta tq
      omega
  · cases tl
    · show Policy.placement s.max (State.mk p.1 p.2 false) ≠
        Policy.placement s.max (State.mk ta tq false)
      intro he
      have hta2 : ta ≤ s.max := hta
      have htq2 : tq ≤ s.max := htq
      have hto2 : ta + tq ≠ o := hto
      have hinj := placement_inj s.max p.1 p.2 ta tq false false
        hb.1 hb.2.1 hta2 htq2 he
      exact hto2 (by omega)
    · exact absurd htl (by simp)

lemma foldl_orders_get_untouched (orders : List ℕ) (s : DpSolver)
    (target : State)
    (hmax : s.policy.max = s.max)
    (hordall : ∀ o ∈ orders, o ≤ 2 * s.max)
    (htar : ∀ o ∈ orders, target.last = true ∨
      (target.active ≤ s.max ∧ target.queued ≤ s.max ∧
        target.last = false ∧ target.active + target.queued ≠ o)) :
    (orders.foldl DpSolver.solveNormalOrder s).policy.get target =
      s.policy.get target := by
  induction orders generalizing s with
  | nil => rfl
  | cons o os ih =>
    rw [List.foldl_cons]
    have hsmax : (s.solveNormalOrder o).max = s.max := rfl
    have hmax2 : (s.solveNormalOrder o).policy.max =
        (s.solveNormalOrder o).max := by
      rw [hsmax, solveNormalOrder_policy_max, hmax]
    rw [ih (s.solveNormalOrder o) hmax2
      (fun o2 ho2 => by
        rw [hsmax]
        exact hordall o2 (List.mem_cons_of_mem o ho2))
      (fun o2 ho2 => by
        rw [hsmax]
        exact htar o2 (List.mem_cons_of_mem o ho2)),
      solveNormalOrder_get_untouched s o target hmax
        (hordall o (List.mem_cons_self o os))
        (htar o (List.mem_cons_self o os))]

lemma getD_nonneg (l : List ℚ) (h : ∀ x ∈ l, 0 ≤ x) (i : ℕ) :
    0 ≤ l.getD i 0 := by
  rw [List.getD_eq_getElem?_getD]
  cases hc : l[i]? with
  | none => simp
  | some x =>
    simp only [Option.getD_some]
    exact h x (List.getElem?_mem hc)

lemma fft_convolve_nonneg (a b : List ℚ) (ha : ∀ x ∈ a, 0 ≤ x)
    (hb : ∀ x ∈ b, 0 ≤ x) : ∀ x ∈ fft_convolve a b, 0 ≤ x := by
  intro x hx
  obtain ⟨k, hk, rfl⟩ := List.mem_map.mp hx
  rw [foldl_add_eq (fun i => a.getD i 0 * b.getD (k - i) 0), zero_add]
  apply List.sum_nonneg
  intro y hy
  obtain ⟨i, hi, rfl⟩ := List.mem_map.mp hy
  exact mul_nonneg (getD_nonneg a ha i) (getD_nonneg b hb (k - i))

lemma dicePmf_nonneg (sides : ℕ) : ∀ x ∈ dicePmf sides, 0 ≤ x := by
  intro x hx
  rw [(List.eq_of_mem_replicate hx : x = ((sides : ℚ))⁻¹)]
  exact inv_nonneg.mpr (Nat.cast_nonneg sides)

lemma iteratedConv_nonneg (sides : ℕ) :
    ∀ n, ∀ x ∈ iteratedConv (dicePmf sides) n, 0 ≤ x := by
  intro n
  induction n with
  | zero =>
    intro x hx
    rw [List.mem_singleton.mp hx]
    norm_num
  | succ n ih =>
    exact fft_convolve_nonneg _ _ ih (dicePmf_nonneg sides)

lemma precompute_lookup_nonneg (max sides n total : ℕ) :
    0 ≤ (PMFLookup.precompute max sides).lookup n total := by
  unfold PMFLookup.precompute PMFLookup.lookup
  simp only []
  apply getD_nonneg
  intro x hx
  obtain ⟨l, hl, hxl⟩ := List.mem_flatten.mp hx
  obtain ⟨j, hj, rfl⟩ := List.mem_map.mp hl
  exact iteratedConv_nonneg sides j x hxl

lemma foldl_nonincr (l : List ℕ) (f : ℚ → ℕ → ℚ)
    (hstep : ∀ acc t, t ∈ l → f acc t ≤ acc) (a : ℚ) :
    l.foldl f a ≤ a := by
  induction l generalizing a with
  | nil => exact le_refl a
  | cons x xs ih =>
    rw [List.foldl_cons]
    exact le_trans
      (ih (fun acc t ht => hstep acc t (List.mem_cons_of_mem x ht)) (f a x))
      (hstep a x (List.mem_cons_self x xs))

lemma calc_terminal_payoff_nonpos (s : DpSolver) (q d : ℕ) (hq : q ≤ s.max)
    (hlk : ∀ n total, 0 ≤ s.pmfs.lookup n total) :
    s.calc_terminal_payoff ⟨q, s.max, true⟩ d ≤ 0 := by
  unfold DpSolver.calc_terminal_payoff
  by_cases hd : d = 0
  · rw [if_pos hd]
    show (if q < s.max then (-1 : ℚ) else if q = s.max then 0 else 1) ≤ 0
    by_cases h1 : q < s.max
    · rw [if_pos h1]
      norm_num
    · rw [if_neg h1, if_pos (by omega : q = s.max)]
  · rw [if_neg hd]
    apply foldl_nonincr
    intro acc t ht
    show (if s.max < q + t ∧ q + t ≤ s.max then acc + s.pmfs.lookup d t
      else if q + t < s.max ∨ s.max < q + t then acc - s.pmfs.lookup d t
      else acc) ≤ acc
    rw [if_neg (by omega : ¬(s.max < q + t ∧ q + t ≤ s.max))]
    by_cases h2 : q + t < s.max ∨ s.max < q + t
    · rw [if_pos h2]
      have := hlk d t
      linarith
    · rw [if_neg h2]

lemma terminalSearchLoop_nonpos (s : DpSolver) (st : State)
    (hcalc : ∀ d, s.calc_terminal_payoff st d ≤ 0) :
    ∀ fuel d best, best.payoff ≤ 0 →
      (s.terminalSearchLoop st fuel d best).payoff ≤ 0 := by
  intro fuel
  induction fuel with
  | zero => exact fun d best h => h
  | succ fuel ih =>
    intro d best h
    show (if 1/10 ≤ best.payoff - s.calc_terminal_payoff st d ∨
        s.terminalSearchBound ≤ d then best
      else s.terminalSearchLoop st fuel (d + 1)
        (if best.payoff < s.calc_terminal_payoff st d
          then Action.mk d (s.calc_terminal_payoff st d)
          else best)).payoff ≤ 0
    by_cases hbr : 1/10 ≤ best.payoff - s.calc_terminal_payoff st d ∨
        s.terminalSearchBound ≤ d
    · rw [if_pos hbr]
      exact h
    · rw [if_neg hbr]
      apply ih
      by_cases hcur : best.payoff < s.calc_terminal_payoff st d
      · rw [if_pos hcur]
        exact hcalc d
      · rw [if_neg hcur]
        exact h

lemma find_optimal_terminal_action_nonpos (s : DpSolver) (q : ℕ)
    (hq : q ≤ s.max) (hs : 1 ≤ s.sides)
    (hlk : ∀ n total, 0 ≤ s.pmfs.lookup n total) :
    (s.find_optimal_terminal_action ⟨q, s.max, true⟩).payoff ≤ 0 := by
  unfold DpSolver.find_optimal_terminal_action
  have hg1 : ¬((State.mk q s.max true).queued <
      (State.mk q s.max true).active) := by
    show ¬(s.max < q)
    omega
  have hg2 : ¬(s.sides * ((State.mk q s.max true).queued -
      (State.mk q s.max true).active + 1) ≤
      s.max - (State.mk q s.max true).active) := by
    show ¬(s.sides * (s.max - q + 1) ≤ s.max - q)
    have h1 : 1 * (s.max - q + 1) ≤ s.sides * (s.max - q + 1) :=
      Nat.mul_le_mul_right _ hs
    omega
  rw [if_neg hg1, if_neg hg2]
  exact terminalSearchLoop_nonpos s _
    (fun d => calc_terminal_payoff_nonpos s q d hq hlk) _ _ _ (by norm_num)

lemma calc_normal_payoff_one_nonpos (s : DpSolver) (q : ℕ)
    (hlk : ∀ n total, 0 ≤ s.pmfs.lookup n total) :
    s.calc_normal_payoff ⟨s.max, q, false⟩ 1 ≤ 0 := by
  unfold DpSolver.calc_normal_payoff
  rw [if_neg (by norm_num : ¬(1 : ℕ) = 0)]
  apply foldl_nonincr
  intro acc t ht
  have htge : 1 ≤ t := by
    have := (List.mem_range'_1.mp ht).1
    omega
  show acc + s.pmfs.lookup 1 t *
    (if s.max + t ≤ s.max then
      -(s.policy.get ⟨q, s.max + t, false⟩).payoff
     else -1) ≤ acc
  rw [if_neg (by omega : ¬(s.max + t ≤ s.max)), mul_neg_one]
  have := hlk 1 t
  linarith

lemma maxOptimalN_at_max (s : DpSolver) (q : ℕ) (hs : 1 ≤ s.sides) :
    s.maxOptimalN ⟨s.max, q, false⟩ = 1 := by
  show 2 * (s.max - s.max + s.sides) / (s.sides + 1) = 1
  rw [Nat.sub_self, Nat.zero_add]
  exact Nat.div_eq_of_lt_le (by omega) (by omega)

lemma find_optimal_normal_action_at_max (s : DpSolver) (q : ℕ)
    (hs : 1 ≤ s.sides)
    (hterm : (s.policy.get ⟨q, s.max, true⟩).payoff ≤ 0)
    (hlk : ∀ n total, 0 ≤ s.pmfs.lookup n total) :
    (s.find_optimal_normal_action ⟨s.max, q, false⟩).n = 0 := by
  have hf0 : s.calc_normal_payoff ⟨s.max, q, false⟩ 0 =
      -(s.policy.get ⟨q, s.max, true⟩).payoff := by
    unfold DpSolver.calc_normal_payoff
    rw [if_pos rfl]
  have hle : s.calc_normal_payoff ⟨s.max, q, false⟩ 1 ≤
      s.calc_normal_payoff ⟨s.max, q, false⟩ 0 := by
    rw [hf0]
    have := calc_normal_payoff_one_nonpos s q hlk
    linarith
  unfold DpSolver.find_optimal_normal_action
  rw [maxOptimalN_at_max s q hs]
  rw [show ((List.range (1 + 1)).reverse.map
    (fun d => (d, s.calc_normal_payoff ⟨s.max, q, false⟩ d))) =
    [(1, s.calc_normal_payoff ⟨s.max, q, false⟩ 1),
     (0, s.calc_normal_payoff ⟨s.max, q, false⟩ 0)] from rfl]
  rw [maxByPayoff_cons]
  rw [show ([((0 : ℕ), s.calc_normal_payoff ⟨s.max, q, false⟩ 0)].foldl
    payoffStep (1, s.calc_normal_payoff ⟨s.max, q, false⟩ 1)) =
    payoffStep (1, s.calc_normal_payoff ⟨s.max, q, false⟩ 1)
      (0, s.calc_normal_payoff ⟨s.max, q, false⟩ 0) from rfl]
  have hle2 : ((1 : ℕ), s.calc_normal_payoff ⟨s.max, q, false⟩ 1).2 ≤
      ((0 : ℕ), s.calc_normal_payoff ⟨s.max, q, false⟩ 0).2 := hle
  unfold payoffStep
  rw [if_pos hle2]

lemma solve_normal_tail_at_max (S : DpSolver) (M sides q : ℕ)
    (hq : q ≤ M) (hs : 1 ≤ sides)
    (hrs : S.ruleset = ⟨M, sides⟩)
    (hpolmax : S.policy.max = M)
    (hlen : S.policy.policy.length = (M + 1) * (M + 1) * 2)
    (hpmfs : S.pmfs = PMFLookup.precompute M sides)
    (hterm : (S.policy.get ⟨q, M, true⟩).payoff ≤ 0) :
    ((((List.range' 0 (M + q)).reverse).foldl DpSolver.solveNormalOrder
      (S.solveNormalOrder (M + q))).policy.get ⟨M, q, false⟩).n = 0 := by
  have hSmaxeq : S.max = M := by
    show S.ruleset.max = M
    rw [hrs]
  have hSsideseq : S.sides = sides := by
    show S.ruleset.sides = sides
    rw [hrs]
  have hlk : ∀ n total, 0 ≤ S.pmfs.lookup n total := by
    intro n total
    rw [hpmfs]
    exact precompute_lookup_nonneg M sides n total
  have hvn : (S.find_optimal_normal_action ⟨M, q, false⟩).n = 0 := by
    rw [show (⟨M, q, false⟩ : State) = ⟨S.max, q, false⟩ by rw [hSmaxeq]]
    apply find_optimal_normal_action_at_max S q (by rw [hSsideseq]; exact hs)
      _ hlk
    rw [show (⟨q, S.max, true⟩ : State) = ⟨q, M, true⟩ by rw [hSmaxeq]]
    exact hterm
  have hS2max : (S.solveNormalOrder (M + q)).max = M := by
    show (S.solveNormalOrder (M + q)).ruleset.max = M
    rw [solveNormalOrder_ruleset, hrs]
  have hS2polmax : (S.solveNormalOrder (M + q)).policy.max =
      (S.solveNormalOrder (M + q)).max := by
    rw [solveNormalOrder_policy_max, hpolmax, hS2max]
  rw [foldl_orders_get_untouched _ _ _ hS2polmax
    (fun o ho => by
      rw [hS2max]
      have := List.mem_range'_1.mp (List.mem_reverse.mp ho)
      omega)
    (fun o ho => Or.inr ⟨by simp [hS2max], by simp [hS2max, hq], rfl, by
      show M + q ≠ o
      have := List.mem_range'_1.mp (List.mem_reverse.mp ho)
      omega⟩)]
  have hcnt : (normalOrderPairs M (M + q)).count (M, q) = 1 := by
    rw [normalOrderPairs_count M (M + q) M q (le_refl M) hq (by omega),
      if_pos rfl]
  have hmemMq : (M, q) ∈ normalOrderPairs M (M + q) := by
    by_contra hc
    rw [List.count_eq_zero.mpr hc] at hcnt
    exact absurd hcnt (by norm_num)
  have hval : (S.solveNormalOrder (M + q)).policy.get ⟨M, q, false⟩ =
      S.find_optimal_normal_action ⟨M, q, false⟩ := by
    show (((normalOrderPairs S.max (M + q)).map
      (fun p => (State.mk p.1 p.2 false,
        S.find_optimal_normal_action (State.mk p.1 p.2 false)))).foldl
      (fun pol sa => pol.set sa.1 sa.2) S.policy).get ⟨M, q, false⟩ = _
    rw [hSmaxeq]
    apply foldl_set_get_of_allsame
    · intro sa hsa he
      obtain ⟨p, hp, rfl⟩ := List.mem_map.mp hsa
      rw [hpolmax] at he
      have he2 : Policy.placement M (State.mk p.1 p.2 false) =
          Policy.placement M (State.mk M q false) := he
      have hb := mem_normalOrderPairs M (M + q) (by omega) p hp
      have hinj := placement_inj M p.1 p.2 M q false false hb.1 hb.2.1
        (le_refl M) hq he2
      show S.find_optimal_normal_action (State.mk p.1 p.2 false) =
        S.find_optimal_normal_action (State.mk M q false)
      rw [hinj.1, hinj.2.1]
    · left
      exact ⟨(State.mk M q false,
        S.find_optimal_normal_action (State.mk M q false)),
        List.mem_map.mpr ⟨(M, q), hmemMq, rfl⟩, rfl⟩
    · rw [hpolmax, hlen]
      exact placement_lt M M q false (le_refl M) hq
  rw [hval]
  exact hvn

lemma solve_stages_at_max (s0 : DpSolver) (M sides q : ℕ)
    (hrs : s0.ruleset = ⟨M, sides⟩)
    (hpolmax : s0.policy.max = M)
    (hlen : s0.policy.policy.length = (M + 1) * (M + 1) * 2)
    (hpmfs : s0.pmfs = PMFLookup.precompute M sides)
    (hq : q ≤ M) (hs : 1 ≤ sides) :
    ((s0.solve_terminal_states.solve_normal_states).policy.get
      ⟨M, q, false⟩).n = 0 := by
  have hs0max : s0.max = M := by
    show s0.ruleset.max = M
    rw [hrs]
  have hs0sides : s0.sides = sides := by
    show s0.ruleset.sides = sides
    rw [hrs]
  have hlk0 : ∀ n total, 0 ≤ s0.pmfs.lookup n total := by
    intro n total
    rw [hpmfs]
    exact precompute_lookup_nonneg M sides n total
  have hs1max : s0.solve_terminal_states.max = M := by
    show s0.solve_terminal_states.ruleset.max = M
    rw [solve_terminal_states_ruleset, hrs]
  have hs1sides : s0.solve_terminal_states.sides = sides := by
    show s0.solve_terminal_states.ruleset.sides = sides
    rw [solve_terminal_states_ruleset, hrs]
  have hs1polmax : s0.solve_terminal_states.policy.max = M := by
    rw [solve_terminal_states_policy_max, hpolmax]
  have hs1len : s0.solve_terminal_states.policy.policy.length =
      (M + 1) * (M + 1) * 2 := by
    rw [solve_terminal_states_policy_length, hlen]
  have hs1pmfs : s0.solve_terminal_states.pmfs =
      PMFLookup.precompute M sides := by
    rw [solve_terminal_states_pmfs, hpmfs]
  have hterm : ((s0.solve_terminal_states).policy.get
      ⟨q, M, true⟩).payoff ≤ 0 := by
    rw [show (⟨q, M, true⟩ : State) = ⟨q, s0.max, true⟩ by rw [hs0max]]
    rw [solve_terminal_states_get s0 q s0.max (by omega) (le_refl _)
      (by rw [hpolmax, hs0max]) (by rw [hlen, hs0max])]
    exact find_optimal_terminal_action_nonpos s0 q (by omega)
      (by rw [hs0sides]; exact hs) hlk0
  -- split the order levels at M + q
  have horders : (List.range (2 * s0.solve_terminal_states.max + 1)).reverse
      = (List.range' (M + q + 1) (M - q)).reverse ++
        ((M + q) :: (List.range' 0 (M + q)).reverse) := by
    rw [hs1max, List.range_eq_range',
      show 2 * M + 1 = (M - q + 1) + (M + q) by omega,
      ← List.range'_append 0 (M + q) (M - q + 1) 1, List.reverse_append,
      show (0 : ℕ) + 1 * (M + q) = M + q by omega,
      show M - q + 1 = (M - q) + 1 from rfl, List.range'_succ,
      List.reverse_cons]
    rw [List.append_assoc, List.singleton_append]
  have hsolve : s0.solve_terminal_states.solve_normal_states =
      ((List.range' 0 (M + q)).reverse).foldl DpSolver.solveNormalOrder
        ((((List.range' (M + q + 1) (M - q)).reverse).foldl
          DpSolver.solveNormalOrder
            s0.solve_terminal_states).solveNormalOrder (M + q)) := by
    unfold DpSolver.solve_normal_states
    rw [horders, List.foldl_append, List.foldl_cons]
  -- the solver state when order M + q is processed
  have hSruleset : (((List.range' (M + q + 1) (M - q)).reverse).foldl
      DpSolver.solveNormalOrder s0.solve_terminal_states).ruleset =
      ⟨M, sides⟩ := by
    rw [foldl_orders_ruleset, solve_terminal_states_ruleset, hrs]
  have hSmax : (((List.range' (M + q + 1) (M - q)).reverse).foldl
      DpSolver.solveNormalOrder s0.solve_terminal_states).max = M := by
    show (((List.range' (M + q + 1) (M - q)).reverse).foldl
      DpSolver.solveNormalOrder s0.solve_terminal_states).ruleset.max = M
    rw [hSruleset]
  have hSsides : (((List.range' (M + q + 1) (M - q)).reverse).foldl
      DpSolver.solveNormalOrder s0.solve_terminal_states).sides = sides := by
    show (((List.range' (M + q + 1) (M - q)).reverse).foldl
      DpSolver.solveNormalOrder s0.solve_terminal_states).ruleset.sides =
      sides
    rw [hSruleset]
  have hSpolmax : (((List.range' (M + q + 1) (M - q)).reverse).foldl
      DpSolver.solveNormalOrder s0.solve_terminal_states).policy.max = M := by
    rw [foldl_orders_policy_max, hs1polmax]
  have hSlen : (((List.range' (M + q + 1) (M - q)).reverse).foldl
      DpSolver.solveNormalOrder
        s0.solve_terminal_states).policy.policy.length =
      (M + 1) * (M + 1) * 2 := by
    rw [foldl_orders_policy_length, hs1len]
  have hSpmfs : (((List.range' (M + q + 1) (M - q)).reverse).foldl
      DpSolver.solveNormalOrder s0.solve_terminal_states).pmfs =
      PMFLookup.precompute M sides := by
    rw [foldl_orders_pmfs, hs1pmfs]
  have hSlk : ∀ n total, 0 ≤ (((List.range' (M + q + 1) (M - q)).reverse).foldl
      DpSolver.solveNormalOrder
        s0.solve_terminal_states).pmfs.lookup n total := by
    intro n total
    rw [hSpmfs]
    exact precompute_lookup_nonneg M sides n total
  have hSterm : ((((List.range' (M + q + 1) (M - q)).reverse).foldl
      DpSolver.solveNormalOrder s0.solve_terminal_states).policy.get
        ⟨q, M, true⟩).payoff ≤ 0 := by
    rw [foldl_orders_get_untouched _ _ _ (by rw [hs1polmax, hs1max])
      (fun o ho => by
        rw [hs1max]
        have := List.mem_range'_1.mp (List.mem_reverse.mp ho)
        omega)
      (fun o ho => Or.inl rfl)]
    exact hterm
  rw [hsolve]
  exact solve_normal_tail_at_max
    (((List.range' (M + q + 1) (M - q)).reverse).foldl
      DpSolver.solveNormalOrder s0.solve_terminal_states)
    M sides q hq hs hSruleset hSpolmax hSlen hSpmfs hSterm


lemma solve_never_rolls_at_max (M sides q : ℕ) (hq : q ≤ M)
    (hs : 1 ≤ sides) :
    (((DpSolver.new M sides).solve).policy.get ⟨M, q, false⟩).n = 0 := by
  show ((((DpSolver.new M
    sides).precompute_pmfs.solve_terminal_states.solve_normal_states)).policy.get
    ⟨M, q, false⟩).n = 0
  exact solve_stages_at_max ((DpSolver.new M sides).precompute_pmfs) M sides q
    rfl rfl
    (by
      show (List.replicate ((M + 1) * (M + 1) * 2)
        (default : Action)).length = (M + 1) * (M + 1) * 2
      rw [List.length_replicate])
    rfl hq hs

/-- C9: the solver never rolls at the maximum score: after `solve()` on the
ruleset `(max 10, sides 2)` the stored action for the normal state
`(active 10, queued 5)` has dice count `0`, and after `solve()` on
`(max 30, sides 6)` every normal state with `active = 30` has stored dice
count `0`. -/
theorem C9_never_roll_at_max_score :
    (((DpSolver.new 10 2).solve).policy.get ⟨10, 5, false⟩).n = 0 ∧
    (∀ q, q ≤ 30 →
      (((DpSolver.new 30 6).solve).policy.get ⟨30, q, false⟩).n = 0) :=
  ⟨solve_never_rolls_at_max 10 2 5 (by norm_num) (by norm_num),
   fun q hq => solve_never_rolls_at_max 30 6 q hq (by norm_num)⟩

/-- Witness for C9 at a concrete input. -/
theorem C9_witness :
    7 ≤ 30 ∧
    (((DpSolver.new 30 6).solve).policy.get ⟨30, 7, false⟩).n = 0 :=
  ⟨by decide, C9_never_roll_at_max_score.2 7 (by decide)⟩

end Greed
